import Mathlib

/-!
Verification development for the hello-cloud reactive runtime.

The definitions below are shallow embeddings of the JavaScript source:
* `common/elements.js` (Lifespan, Reference, Boxed, ComputableReference, Zone),
* `common/reflection.js` (type predicates),
* `common/datastore.js` (Datastore serialization),
* `client/network/sync.js` (DatastoreSync),
* `client/network/transport.js` (HttpTransport).

JavaScript objects are modelled first-order: functions and references are
identified by numeric ids, and a fatal error (`panic`, which throws) is
modelled as `Option.none` / an explicit error result.
-/

namespace HelloCloud

/-! ## Values (the JavaScript values that flow through the runtime)

`Val.fn` and `Val.ref` carry an id standing for object identity of a
function or of a `Reference` instance; `Val.null` is JS `null`.
-/

inductive Val where
  | bool (b : Bool)
  | int (n : Int)
  | str (s : String)
  | fn (id : Nat)
  | ref (id : Nat)
  | null
  deriving DecidableEq, Repr

/-- `newValue instanceof Reference` (the guard at the top of `Boxed.setValue`). -/
def isRef : Val → Bool
  | .ref _ => true
  | _ => false

/-- The element types of `reflection.js` that the claims exercise
(`BooleanType`, `StringType`, `IntegerType`, `FunctionType`, `NullType`,
`ObjectType`).  Each carries the `isInstance` predicate from the source. -/
inductive Ty where
  | boolean
  | string
  | integer
  | fnTy
  | nullTy
  | object
  deriving DecidableEq, Repr

/-- The `isInstance` predicates of `reflection.js`, restricted to `Val`.
`ObjectType`'s predicate is `(value) => true`. -/
def Ty.isInstance : Ty → Val → Bool
  | .boolean, .bool _ => true
  | .string, .str _ => true
  | .integer, .int _ => true
  | .fnTy, .fn _ => true
  | .nullTy, .null => true
  | .object, _ => true
  | _, _ => false

/-- JavaScript loose equality `==` on the modelled value universe.
Same-kind comparisons are structural; `boolean == number` coerces the
boolean to 0/1 as JS does.  String-to-number coercion is not modelled
(no claim compares a string cell against a number). -/
def jsEq : Val → Val → Bool
  | .bool a, .bool b => a == b
  | .int a, .int b => a == b
  | .str a, .str b => a == b
  | .fn a, .fn b => a == b
  | .ref a, .ref b => a == b
  | .null, .null => true
  | .bool a, .int b => (if a then (1 : Int) else 0) == b
  | .int a, .bool b => a == (if b then (1 : Int) else 0)
  | _, _ => false

/-! ## `Boxed` cells (`elements.js`, class `Boxed`)

A Boxed cell holds a current value, its declared type, and the list of
registered observers (callback ids).  `setValue` mirrors the source:

```js
setValue(newValue) {
  if (newValue instanceof Reference) {
    return panic("The value in setValue() can't be a reference.");
  }
  if (newValue == this.value) {
    return;
  }
  this.typecheck(newValue);
  this.value = newValue;
  this.internalTriggerObservers();
}
```

The result is the updated cell together with the list of observers that
`internalTriggerObservers` schedules; a panic is an explicit error. -/

structure BoxedCell where
  value : Val
  ty : Ty
  observers : List Nat
  deriving DecidableEq, Repr

inductive SetErr where
  | refValue
  | typeFailed
  deriving DecidableEq, Repr

def setValue (cell : BoxedCell) (newValue : Val) : Except SetErr (BoxedCell × List Nat) :=
  if isRef newValue then .error .refValue
  else if jsEq newValue cell.value then .ok (cell, [])
  else if cell.ty.isInstance newValue then
    .ok ({ cell with value := newValue }, cell.observers)
  else .error .typeFailed

/-! ## The Zone scheduler (`elements.js`, class `Zone`)

A Zone owns an ordered observer queue, a set mirroring queue membership,
an ordered action queue, the `processingScheduled` flag and the single
suppressed-observer slot.  Callbacks (observers and actions) are function
ids; the set is modelled as a duplicate-free list. -/

structure ZoneState where
  observerQueue : List Nat
  observerSet : List Nat
  actionQueue : List Nat
  processingScheduled : Bool
  suppressedObserver : Option Nat
  deriving DecidableEq, Repr

namespace Zone

/-- `Zone.scheduleObserver`: collapse if the observer is already in the
set or is the suppressed observer; otherwise enqueue (and `scheduleProcessing`
sets the flag). -/
def scheduleObserver (z : ZoneState) (observer : Nat) : ZoneState :=
  if z.observerSet.contains observer || z.suppressedObserver == some observer then z
  else { z with observerQueue := z.observerQueue ++ [observer],
                observerSet := z.observerSet ++ [observer],
                processingScheduled := true }

/-- `Zone.scheduleAction`: always enqueue. -/
def scheduleAction (z : ZoneState) (action : Nat) : ZoneState :=
  { z with actionQueue := z.actionQueue ++ [action], processingScheduled := true }

/-- `Zone.internalSuppressObserver`: panics if an observer is already
suppressed. -/
def internalSuppressObserver (z : ZoneState) (observer : Nat) : Option ZoneState :=
  if z.suppressedObserver ≠ none then none
  else some { z with suppressedObserver := some observer }

/-- `Zone.internalUnsuppressObserver`: panics on a mismatched observer. -/
def internalUnsuppressObserver (z : ZoneState) (observer : Nat) : Option ZoneState :=
  if z.suppressedObserver ≠ some observer then none
  else some { z with suppressedObserver := none }

/-- What a callback does when invoked: a finite list of scheduling
operations against its Zone.  An environment `env : Nat → List Op` fixes
the body of every callback id. -/
inductive Op where
  | schedObs (observer : Nat)
  | schedAct (action : Nat)
  deriving DecidableEq, Repr

/-- Run a callback body: perform its scheduling operations in order. -/
def runOps (z : ZoneState) : List Op → ZoneState
  | [] => z
  | .schedObs o :: rest => runOps (scheduleObserver z o) rest
  | .schedAct a :: rest => runOps (scheduleAction z a) rest

/-- Events of one drain: which callback ran, and as what. -/
inductive Ev where
  | obs (id : Nat)
  | act (id : Nat)
  deriving DecidableEq, Repr

def Ev.isObs : Ev → Bool
  | .obs _ => true
  | .act _ => false

def Ev.actOf : Ev → Option Nat
  | .obs _ => none
  | .act a => some a

/-- The actions a callback body schedules, in order (its `scheduleAction`
calls; `scheduleObserver` calls never touch the action queue). -/
def actsOf (ops : List Op) : List Nat :=
  ops.filterMap fun op => match op with
    | .schedAct a => some a
    | .schedObs _ => none

/-- The actions scheduled over a drain trace, in scheduling order: each
event of the trace is a callback invocation, and the callback's body
appends its `actsOf` to the action queue. -/
def schedLog (env : Nat → List Op) : List Ev → List Nat
  | [] => []
  | .obs o :: rest => actsOf (env o) ++ schedLog env rest
  | .act a :: rest => actsOf (env a) ++ schedLog env rest

/-- `Zone.processQueues`.  The source's nested `while` loops are equivalent
to: while either queue is nonempty, run one observer if the observer queue
is nonempty, else run one action.  An observer is shifted, invoked, and only
then deleted from the set; an action is shifted and invoked.  `fuel` bounds
the number of callback invocations (the JS loop can diverge if callbacks
keep rescheduling); `none` means the bound was hit.  On normal exit
`processingScheduled` is reset.  The returned list is the trace of
callback invocations. -/
def processQueues (env : Nat → List Op) : Nat → ZoneState → Option (ZoneState × List Ev)
  | 0, _ => none
  | fuel + 1, z =>
    match z.observerQueue with
    | o :: rest =>
      let z1 := runOps { z with observerQueue := rest } (env o)
      let z2 := { z1 with observerSet := z1.observerSet.erase o }
      match processQueues env fuel z2 with
      | none => none
      | some (zEnd, evs) => some (zEnd, .obs o :: evs)
    | [] =>
      match z.actionQueue with
      | a :: arest =>
        let z1 := runOps { z with actionQueue := arest } (env a)
        match processQueues env fuel z1 with
        | none => none
        | some (zEnd, evs) => some (zEnd, .act a :: evs)
      | [] => some ({ z with processingScheduled := false }, [])

end Zone

/-! ## Computed-cell dependencies (`elements.js`, class `ComputableReference`)

Cells are identified by ids.  A graph is the association of each
`ComputableReference` id with its `dependsOnReferences` array (edge targets
may be any `Reference`; only `ComputableReference` entries have out-edges,
so a non-computed cell simply has no entry).  `introducesCycle` is the
worklist search of the source:

```js
introducesCycle(anotherReference) {
  if (anotherReference == this) { return true; }
  const dependenciesList = [ anotherReference ];
  const dependenciesSet = new Set();
  dependenciesSet.add(anotherReference);
  for (index = 0; index < dependenciesList.length; ++index) {
    const theReference = dependenciesList[index];
    if (theReference == this) { return true; }
    if (theReference instanceof ComputableReference) {
      for (const dependence of theReference.dependsOnReferences) {
        if (!dependenciesSet.has(dependence)) {
          dependenciesList.push(dependence);
          dependenciesSet.add(dependence);
        }
      }
    }
  }
  return false;
}
```

The growing `dependenciesList` with its moving index is modelled as a
queue of not-yet-visited entries plus the seen set; the JS loop always
terminates because the set only admits finitely many cells, which the
embedding expresses with a fuel bound that is proved sufficient
(`introducesCycle_complete` below). -/

abbrev Graph := List (Nat × List Nat)

/-- The `dependsOnReferences` list of a cell (empty for non-computed cells). -/
def depsOf (G : Graph) (x : Nat) : List Nat := (G.lookup x).getD []

/-- Every id that occurs in some dependency list. -/
def depTargets (G : Graph) : List Nat := (G.map Prod.snd).flatten

/-- The inner `for (const dependence of ...)` loop: push each dependence
that is not yet in the seen set onto both the worklist and the seen set. -/
def pushDeps : List Nat → List Nat → List Nat → List Nat × List Nat
  | [], queue, seen => (queue, seen)
  | d :: ds, queue, seen =>
    if seen.contains d then pushDeps ds queue seen
    else pushDeps ds (queue ++ [d]) (seen ++ [d])

/-- The outer worklist loop of `introducesCycle`. -/
def cycleSearch (G : Graph) (self : Nat) : Nat → List Nat → List Nat → Bool
  | 0, _, _ => false
  | _ + 1, [], _ => false
  | fuel + 1, r :: rest, seen =>
    if r = self then true
    else
      let pushed := pushDeps (depsOf G r) rest seen
      cycleSearch G self fuel pushed.1 pushed.2

/-- `ComputableReference.introducesCycle`.  The fuel bound suffices: the
loop visits each cell at most once (see `introducesCycle_complete`). -/
def introducesCycle (G : Graph) (self another : Nat) : Bool :=
  if another = self then true
  else cycleSearch G self ((depTargets G).toFinset.card + 2) [another] [another]

/-- `this.dependsOnReferences.push(anotherObject)`: append to the cell's
dependency list (creating the entry if the cell has none yet). -/
def insertEdge : Graph → Nat → Nat → Graph
  | [], self, another => [(self, [another])]
  | (x, ds) :: rest, self, another =>
    if x = self then (x, ds ++ [another]) :: rest
    else (x, ds) :: insertEdge rest self another

/-- `ComputableReference.dependsOn`, called on computed cell `self` with a
`Reference` argument `another`: panic (`none`) when the edge would
introduce a cycle, otherwise record it. -/
def dependsOn (G : Graph) (self another : Nat) : Option Graph :=
  if introducesCycle G self another then none
  else some (insertEdge G self another)

/-- `y` is reachable from `x` along recorded dependency edges. -/
inductive Reaches (G : Graph) : Nat → Nat → Prop where
  | refl (x : Nat) : Reaches G x x
  | step {x y z : Nat} : y ∈ depsOf G x → Reaches G y z → Reaches G x z

/-- No cell can be reached back from one of its dependencies: the recorded
edges form a DAG. -/
def Acyclic (G : Graph) : Prop :=
  ∀ x y, y ∈ depsOf G x → ¬ Reaches G y x

/-! ## Datastore serialization (`common/datastore.js`)

A Datastore is built from a `members` record (name → Reference).  The
embedding keeps, per member, the kind of Reference it is, its declared
type and its current value.  `getFields(members)` selects the Boxed
members of serializable type; `toJson`/`fromJson`/`observeAll` iterate
over exactly that field list, so the auto-added `syncStatus` connectivity
cell (added outside `members`) and non-Boxed or non-serializable members
are excluded from serialization.  `fromJson` writes through the standalone
`setValue` function, which panics on a non-Boxed reference and otherwise
follows `Boxed.setValue`. -/

inductive RefKind where
  | constant
  | boxed
  | computed
  deriving DecidableEq, Repr

structure DSMember where
  kind : RefKind
  ty : Ty
  value : Val
  deriving DecidableEq, Repr

namespace Datastore

/-- `Datastore.isSerializeble` (sic, name as in the source). -/
def isSerializeble (t : Ty) : Bool :=
  t == Ty.boolean || t == Ty.string || t == Ty.integer

/-- `Datastore.getFields`: the Boxed members of serializable type. -/
def getFields (members : List (String × DSMember)) : List String :=
  (members.filter fun m => m.2.kind == RefKind.boxed && isSerializeble m.2.ty).map Prod.fst

/-- `getValue(this[field])` (fields are Boxed, so this reads the stored
value).  The default is never used when the field exists. -/
def memberValue (members : List (String × DSMember)) (f : String) : Val :=
  ((members.lookup f).map DSMember.value).getD Val.null

/-- `Datastore.toJson`: the record of serializable field values. -/
def toJson (members : List (String × DSMember)) : List (String × Val) :=
  (getFields members).map fun f => (f, memberValue members f)

def updateMember : List (String × DSMember) → String → Val → List (String × DSMember)
  | [], _, _ => []
  | (n, m) :: rest, f, v =>
    if n = f then (n, { m with value := v }) :: rest
    else (n, m) :: updateMember rest f v

/-- `setValue(this[field], v)`: the standalone `setValue` panics on a
non-Boxed reference; `Boxed.setValue` then applies the reference guard,
the equality suppression, and the type check. -/
def setValue (members : List (String × DSMember)) (f : String) (v : Val) :
    Option (List (String × DSMember)) :=
  match members.lookup f with
  | none => none
  | some m =>
    if m.kind != RefKind.boxed then none
    else if isRef v then none
    else if jsEq v m.value then some members
    else if m.ty.isInstance v then some (updateMember members f v)
    else none

/-- The `for (const field of fields)` loop of `Datastore.fromJson`.  A
field missing from the payload reads as `undefined` in the source and
fails the serializable type check, a panic. -/
def fromJsonFields : List String → List (String × Val) → List (String × DSMember) →
    Option (List (String × DSMember))
  | [], _, ms => some ms
  | f :: rest, data, ms =>
    match data.lookup f with
    | none => none
    | some v =>
      match setValue ms f v with
      | none => none
      | some ms2 => fromJsonFields rest data ms2

/-- `Datastore.fromJson`. -/
def fromJson (members : List (String × DSMember)) (data : List (String × Val)) :
    Option (List (String × DSMember)) :=
  fromJsonFields (getFields members) data members

end Datastore

/-! ## DatastoreSync (`client/network/sync.js`)

An integrated model of the sync engine together with the parts of the
Zone and the Datastore it touches.  `store` holds the serializable fields
of the synced datastore; the sync engine's `datastoreObserver` (one
function identity, registered by `observeAll` on every serializable
field) is the only observer modelled, and the two kinds of closures the
engine schedules as Zone actions are `startSync` (`this.startSync`) and
the fresh `() => this.startPushRequest()` closures made in
`datastoreChanged`.  `inFlight` lists transport requests that have been
started and not yet completed; `HttpTransport.startRequest` appends to
it.  `delayedQueue` holds actions scheduled by `scheduleDelayedAction`
whose timer has not fired yet. -/

inductive SyncStatus where
  | notInit
  | notAuth
  | offline
  | online
  deriving DecidableEq, Repr

inductive ReqKind where
  | pull
  | push
  deriving DecidableEq, Repr

inductive ObsTag where
  | datastoreObs
  deriving DecidableEq, Repr

inductive ActTag where
  | startSync
  | pushRequestClosure
  deriving DecidableEq, Repr

structure FieldCell where
  name : String
  ty : Ty
  value : Val
  deriving DecidableEq, Repr

structure Sys where
  store : List FieldCell
  syncStatus : SyncStatus
  isActive : Bool
  isPullEnabled : Bool
  isRequestPending : Bool
  isRequestInProgress : Bool
  shouldPush : Bool
  observerQueue : List ObsTag
  observerSet : List ObsTag
  actionQueue : List ActTag
  delayedQueue : List ActTag
  suppressed : Option ObsTag
  inFlight : List ReqKind
  deriving DecidableEq, Repr

namespace Sync

/-- `Zone.scheduleObserver` specialized to this system. -/
def scheduleObserver (s : Sys) (o : ObsTag) : Sys :=
  if s.observerSet.contains o || s.suppressed == some o then s
  else { s with observerQueue := s.observerQueue ++ [o],
                observerSet := s.observerSet ++ [o] }

/-- `Zone.scheduleAction`. -/
def scheduleAction (s : Sys) (a : ActTag) : Sys :=
  { s with actionQueue := s.actionQueue ++ [a] }

/-- `Zone.scheduleDelayedAction`: the action sits on a timer. -/
def scheduleDelayedAction (s : Sys) (a : ActTag) : Sys :=
  { s with delayedQueue := s.delayedQueue ++ [a] }

/-- `Zone.internalSuppressObserver`. -/
def internalSuppressObserver (s : Sys) (o : ObsTag) : Option Sys :=
  if s.suppressed ≠ none then none
  else some { s with suppressed := some o }

/-- `Zone.internalUnsuppressObserver`. -/
def internalUnsuppressObserver (s : Sys) (o : ObsTag) : Option Sys :=
  if s.suppressed ≠ some o then none
  else some { s with suppressed := none }

def lookupField : List FieldCell → String → Option FieldCell
  | [], _ => none
  | c :: rest, n => if c.name = n then some c else lookupField rest n

def updateField : List FieldCell → String → Val → List FieldCell
  | [], _, _ => []
  | c :: rest, n, v =>
    if c.name = n then { c with value := v } :: rest
    else c :: updateField rest n v

/-- `Boxed.setValue` on a named datastore field.  On an actual change the
cell's observers are triggered; the sync engine's datastore observer is
registered on every serializable field, so the change schedules it. -/
def setField (s : Sys) (n : String) (v : Val) : Option Sys :=
  match lookupField s.store n with
  | none => none
  | some c =>
    if isRef v then none
    else if jsEq v c.value then some s
    else if c.ty.isInstance v then
      some (scheduleObserver { s with store := updateField s.store n v } ObsTag.datastoreObs)
    else none

def fieldNames (store : List FieldCell) : List String := store.map FieldCell.name

/-- The loop of `Datastore.fromJson`: write each of the datastore's own
fields from the payload (a missing payload entry reads as `undefined` and
fails the serializable type check — a panic). -/
def fromJsonGo : List String → List (String × Val) → Sys → Option Sys
  | [], _, s => some s
  | n :: rest, data, s =>
    match data.lookup n with
    | none => none
    | some v =>
      match setField s n v with
      | none => none
      | some s2 => fromJsonGo rest data s2

/-- `this.datastore.fromJson(JSON.parse(response))`. -/
def fromJson (s : Sys) (data : List (String × Val)) : Option Sys :=
  fromJsonGo (fieldNames s.store) data s

/-- The store update performed by `fromJson`, as a pure function of the
store (same tests and the same first-match update, no observer effects):
used to state what `pullCallback` does to the data. -/
def applyStore : List String → List (String × Val) → List FieldCell → List FieldCell
  | [], _, st => st
  | n :: rest, data, st =>
    match data.lookup n with
    | none => st
    | some v =>
      match lookupField st n with
      | none => st
      | some c =>
        if isRef v then st
        else if jsEq v c.value then applyStore rest data st
        else if c.ty.isInstance v then applyStore rest data (updateField st n v)
        else st

/-- `DatastoreSync.startPushRequest`: sets the in-progress flag, snapshots
the payload, clears `shouldPush` and starts a transport request.  Note it
does not re-check `isRequestInProgress`. -/
def startPushRequest (s : Sys) : Sys :=
  { s with isRequestInProgress := true, shouldPush := false,
           inFlight := s.inFlight ++ [ReqKind.push] }

/-- `DatastoreSync.startPullRequest`. -/
def startPullRequest (s : Sys) : Sys :=
  { s with isRequestInProgress := true, inFlight := s.inFlight ++ [ReqKind.pull] }

/-- `DatastoreSync.scheduleSyncRequest`. -/
def scheduleSyncRequest (s : Sys) : Sys :=
  if !s.isRequestPending && !s.isRequestInProgress then
    { s with delayedQueue := s.delayedQueue ++ [ActTag.startSync],
             isRequestPending := true }
  else s

/-- `DatastoreSync.startSyncRequest`. -/
def startSyncRequest (s : Sys) : Sys :=
  let s1 := { s with isRequestPending := false }
  if s1.isActive then
    if s1.shouldPush then startPushRequest s1
    else if s1.isPullEnabled then startPullRequest s1
    else scheduleSyncRequest s1
  else s1

/-- `DatastoreSync.isActiveToggled`. -/
def isActiveToggled (s : Sys) : Sys :=
  if s.isActive && !s.isRequestInProgress && !s.isRequestPending then
    scheduleAction s ActTag.startSync
  else s

/-- `DatastoreSync.datastoreChanged` (the body of `datastoreObserver`). -/
def datastoreChanged (s : Sys) : Sys :=
  let s1 := { s with shouldPush := true }
  if !s1.isRequestInProgress then scheduleAction s1 ActTag.pushRequestClosure
  else s1

/-- `DatastoreSync.pullCallback`: clear the in-progress flag, apply the
payload with the datastore observer suppressed, set the connectivity cell
to ONLINE (its observers are outside this model, so the write is the
assignment), and reschedule. -/
def pullCallback (s : Sys) (response : List (String × Val)) : Option Sys :=
  let s1 := { s with isRequestInProgress := false }
  match internalSuppressObserver s1 ObsTag.datastoreObs with
  | none => none
  | some s2 =>
    match fromJson s2 response with
    | none => none
    | some s3 =>
      match internalUnsuppressObserver s3 ObsTag.datastoreObs with
      | none => none
      | some s4 => some (scheduleSyncRequest { s4 with syncStatus := SyncStatus.online })

/-- `DatastoreSync.pullErrorCallback`. -/
def pullErrorCallback (s : Sys) : Sys :=
  scheduleSyncRequest
    { s with isRequestInProgress := false, syncStatus := SyncStatus.offline }

/-- `DatastoreSync.pushCallback`. -/
def pushCallback (s : Sys) : Sys :=
  scheduleSyncRequest
    { s with isRequestInProgress := false, syncStatus := SyncStatus.online }

/-- `DatastoreSync.pushErrorCallback`: failure re-arms `shouldPush`. -/
def pushErrorCallback (s : Sys) : Sys :=
  scheduleSyncRequest
    { s with isRequestInProgress := false, syncStatus := SyncStatus.offline,
             shouldPush := true }

/-- Run a queued Zone action of this system. -/
def runAct (s : Sys) : ActTag → Sys
  | .startSync => startSyncRequest s
  | .pushRequestClosure => startPushRequest s

/-- The events that drive the system: a write to a datastore field (a
user-level `setValue`), the Zone invoking a queued observer or action, a
delayed action's timer firing, and the completion or failure (including
timeout) of the oldest in-flight transport request. -/
inductive SyncEvent where
  | writeField (n : String) (v : Val)
  | runObserver
  | runAction
  | fireDelayed
  | completeHead (response : List (String × Val))
  | failHead
  deriving Repr

def step (s : Sys) : SyncEvent → Option Sys
  | .writeField n v => setField s n v
  | .runObserver =>
    match s.observerQueue with
    | [] => none
    | o :: rest =>
      let s1 := match o with
        | ObsTag.datastoreObs => datastoreChanged { s with observerQueue := rest }
      some { s1 with observerSet := s1.observerSet.erase o }
  | .runAction =>
    match s.actionQueue with
    | [] => none
    | a :: rest => some (runAct { s with actionQueue := rest } a)
  | .fireDelayed =>
    match s.delayedQueue with
    | [] => none
    | a :: rest => some (scheduleAction { s with delayedQueue := rest } a)
  | .completeHead response =>
    match s.inFlight with
    | [] => none
    | ReqKind.pull :: rest => pullCallback { s with inFlight := rest } response
    | ReqKind.push :: rest => some (pushCallback { s with inFlight := rest })
  | .failHead =>
    match s.inFlight with
    | [] => none
    | ReqKind.pull :: rest => some (pullErrorCallback { s with inFlight := rest })
    | ReqKind.push :: rest => some (pushErrorCallback { s with inFlight := rest })

def run (s : Sys) : List SyncEvent → Option Sys
  | [] => some s
  | e :: rest =>
    match step s e with
    | none => none
    | some s2 => run s2 rest

end Sync

/-! ## HttpTransport (`client/network/transport.js`)

The per-call completion state of `startRequest`: the local `active` flag,
whether `request.abort()` was called, and the callbacks fired so far.
Events: `onreadystatechange` with `readyState != 4` (an early return),
`onreadystatechange` with `readyState == 4` (carrying the HTTP status and
whether `responseText` is non-empty — note the abort performed by the
timeout path also fires one of these), and the timeout timer. -/

namespace Transport

inductive TEvent where
  | progress
  | response (status : Nat) (hasText : Bool)
  | timeout
  deriving DecidableEq, Repr

inductive TCallback where
  | onSuccess
  | onError
  deriving DecidableEq, Repr

structure TransportCall where
  active : Bool
  aborted : Bool
  fired : List TCallback
  deriving DecidableEq, Repr

/-- The state right after `startRequest` sends the request:
`var active = true`. -/
def initCall : TransportCall := ⟨true, false, []⟩

/-- One completion event.  Both completion paths first check `active` and
return if it is cleared; otherwise they clear it before acting.  A
`readyState == 4` event fires `callback` on status 200 with a non-empty
body and `errorCallback` otherwise (an exception inside `callback` is
caught and only logged); the timeout clears the flag, aborts the request
and fires `errorCallback`. -/
def tStep (c : TransportCall) : TEvent → TransportCall
  | .progress => c
  | .response status hasText =>
    if !c.active then c
    else { c with active := false,
                  fired := c.fired ++
                    [if status == 200 && hasText then TCallback.onSuccess
                     else TCallback.onError] }
  | .timeout =>
    if !c.active then c
    else { c with active := false, aborted := true,
                  fired := c.fired ++ [TCallback.onError] }

/-- The call state after an arbitrary interleaving of completion events. -/
def tRun (evs : List TEvent) : TransportCall := evs.foldl tStep initCall

end Transport

/-! # Theorems

Everything below is proved about the definitions above.  Helper lemmas come
first, then one theorem per claim (with a witness or counterexample where
required).
-/

theorem jsEq_refl (v : Val) : jsEq v v = true := by
  cases v <;> simp [jsEq]

namespace Zone

theorem scheduleObserver_observerQueue (z : ZoneState) (o : Nat) :
    ∃ t, (scheduleObserver z o).observerQueue = z.observerQueue ++ t := by
  unfold scheduleObserver
  split
  · exact ⟨[], by simp⟩
  · exact ⟨[o], rfl⟩

theorem scheduleObserver_actionQueue (z : ZoneState) (o : Nat) :
    (scheduleObserver z o).actionQueue = z.actionQueue := by
  unfold scheduleObserver
  split <;> rfl

/-- `runOps` only appends to the observer queue. -/
theorem runOps_observerQueue (z : ZoneState) (ops : List Op) :
    ∃ t, (runOps z ops).observerQueue = z.observerQueue ++ t := by
  induction ops generalizing z with
  | nil => exact ⟨[], by simp [runOps]⟩
  | cons op rest ih =>
    cases op with
    | schedObs o =>
      obtain ⟨t1, h1⟩ := scheduleObserver_observerQueue z o
      obtain ⟨t2, h2⟩ := ih (scheduleObserver z o)
      refine ⟨t1 ++ t2, ?_⟩
      simp only [runOps]
      rw [h2, h1]
      simp
    | schedAct a =>
      obtain ⟨t2, h2⟩ := ih (scheduleAction z a)
      refine ⟨t2, ?_⟩
      simp only [runOps]
      rw [h2]
      simp [scheduleAction]

/-- `runOps` only appends to the action queue. -/
theorem runOps_actionQueue (z : ZoneState) (ops : List Op) :
    ∃ t, (runOps z ops).actionQueue = z.actionQueue ++ t := by
  induction ops generalizing z with
  | nil => exact ⟨[], by simp [runOps]⟩
  | cons op rest ih =>
    cases op with
    | schedObs o =>
      obtain ⟨t2, h2⟩ := ih (scheduleObserver z o)
      refine ⟨t2, ?_⟩
      simp only [runOps]
      rw [h2, scheduleObserver_actionQueue]
    | schedAct a =>
      obtain ⟨t2, h2⟩ := ih (scheduleAction z a)
      refine ⟨a :: t2, ?_⟩
      simp only [runOps]
      rw [h2]
      simp [scheduleAction]

/-- `runOps` appends to the action queue exactly the actions the body
schedules, in order. -/
theorem runOps_actionQueue_eq (z : ZoneState) (ops : List Op) :
    (runOps z ops).actionQueue = z.actionQueue ++ actsOf ops := by
  induction ops generalizing z with
  | nil => simp [runOps, actsOf]
  | cons op rest ih =>
    cases op with
    | schedObs o =>
      simp only [runOps]
      rw [ih, scheduleObserver_actionQueue]
      simp [actsOf]
    | schedAct a =>
      simp only [runOps]
      rw [ih]
      simp [scheduleAction, actsOf]

/-- In one drain, every observer queued when the drain starts runs before
the first action event: there is a prefix of the trace consisting only of
observer events that contains a run of each initially queued observer. -/
theorem processQueues_observers_first (env : Nat → List Op) :
    ∀ fuel z zEnd evs, processQueues env fuel z = some (zEnd, evs) →
      ∃ n, ((evs.take n).all Ev.isObs = true) ∧
        ∀ o ∈ z.observerQueue, Ev.obs o ∈ evs.take n := by
  intro fuel
  induction fuel with
  | zero => intro z zEnd evs h; simp [processQueues] at h
  | succ fuel ih =>
    intro z zEnd evs h
    simp only [processQueues] at h
    cases hq : z.observerQueue with
    | nil =>
      refine ⟨0, by simp, ?_⟩
      intro o ho
      simp at ho
    | cons o rest =>
      rw [hq] at h
      simp only at h
      split at h
      · exact absurd h (by simp)
      · next zMid evs' heq =>
        simp only [Option.some.injEq, Prod.mk.injEq] at h
        obtain ⟨hz, hevs⟩ := h
        obtain ⟨n, hall, hmem⟩ := ih _ zMid evs' heq
        refine ⟨n + 1, ?_, ?_⟩
        · rw [← hevs]
          simpa [Ev.isObs] using hall
        · intro o' ho'
          rcases List.mem_cons.mp ho' with h1 | h1
          · rw [← hevs]; simp [h1]
          · have hqmem : Ev.obs o' ∈ evs'.take n := by
              apply hmem
              obtain ⟨t, ht⟩ :=
                runOps_observerQueue { z with observerQueue := rest } (env o)
              simp only [ht]
              exact List.mem_append_left t h1
            rw [← hevs]
            simp only [List.take_succ_cons, List.mem_cons]
            right; exact hqmem

/-- In one drain, actions run in FIFO order relative to each other: the
sequence of executed actions is exactly the initially queued actions
followed by every action scheduled during the drain, in scheduling
order. -/
theorem processQueues_actions_fifo (env : Nat → List Op) :
    ∀ fuel z zEnd evs, processQueues env fuel z = some (zEnd, evs) →
      evs.filterMap Ev.actOf = z.actionQueue ++ schedLog env evs := by
  intro fuel
  induction fuel with
  | zero => intro z zEnd evs h; simp [processQueues] at h
  | succ fuel ih =>
    intro z zEnd evs h
    simp only [processQueues] at h
    cases hq : z.observerQueue with
    | cons o rest =>
      rw [hq] at h
      simp only at h
      split at h
      · exact absurd h (by simp)
      · next zMid evs' heq =>
        simp only [Option.some.injEq, Prod.mk.injEq] at h
        obtain ⟨hz, hevs⟩ := h
        have ht := ih _ zMid evs' heq
        have ht2 := runOps_actionQueue_eq { z with observerQueue := rest } (env o)
        rw [← hevs]
        simp only [List.filterMap_cons, Ev.actOf, schedLog]
        rw [ht]
        simp only [ht2]
        simp
    | nil =>
      rw [hq] at h
      simp only at h
      cases ha : z.actionQueue with
      | nil =>
        rw [ha] at h
        simp only [Option.some.injEq, Prod.mk.injEq] at h
        obtain ⟨hz, hevs⟩ := h
        simp [← hevs, ha, schedLog]
      | cons a arest =>
        rw [ha] at h
        simp only at h
        split at h
        · exact absurd h (by simp)
        · next zMid evs' heq =>
          simp only [Option.some.injEq, Prod.mk.injEq] at h
          obtain ⟨hz, hevs⟩ := h
          have ht := ih _ zMid evs' heq
          have ht2 :=
            runOps_actionQueue_eq { z with observerQueue := [], actionQueue := arest } (env a)
          rw [← hevs]
          simp only [List.filterMap_cons, Ev.actOf, schedLog]
          rw [ht]
          simp only [ht2]
          simp

end Zone

/-! ## Dependency-graph lemmas (for C1) -/

theorem depsOf_nil (x : Nat) : depsOf [] x = [] := rfl

theorem depsOf_cons (k : Nat) (ds : List Nat) (rest : Graph) (x : Nat) :
    depsOf ((k, ds) :: rest) x = if x = k then ds else depsOf rest x := by
  by_cases h : x = k
  · simp [depsOf, List.lookup, h]
  · have hb : (x == k) = false := beq_eq_false_iff_ne.mpr h
    simp [depsOf, List.lookup, hb, h]

theorem depsOf_insertEdge (G : Graph) (s a x : Nat) :
    depsOf (insertEdge G s a) x = if x = s then depsOf G x ++ [a] else depsOf G x := by
  induction G with
  | nil =>
    by_cases h : x = s <;> simp [insertEdge, depsOf_cons, depsOf_nil, h]
  | cons p rest ih =>
    obtain ⟨k, ds⟩ := p
    by_cases hk : k = s
    · subst hk
      by_cases hx : x = k <;> simp [insertEdge, depsOf_cons, hx]
    · have hstep : insertEdge ((k, ds) :: rest) s a = (k, ds) :: insertEdge rest s a := by
        simp [insertEdge, hk]
      rw [hstep]
      by_cases hx : x = k
      · have hxs : ¬ x = s := by rw [hx]; exact hk
        simp [depsOf_cons, hx, hxs, hk]
      · simp [depsOf_cons, hx, ih]

theorem mem_depTargets {G : Graph} {x d : Nat} (h : d ∈ depsOf G x) :
    d ∈ depTargets G := by
  induction G with
  | nil => simp [depsOf_nil] at h
  | cons p rest ih =>
    obtain ⟨k, ds⟩ := p
    rw [depsOf_cons] at h
    by_cases hx : x = k
    · rw [if_pos hx] at h
      simp [depTargets]
      exact Or.inl h
    · rw [if_neg hx] at h
      simp [depTargets] at ih ⊢
      exact Or.inr (ih h)

theorem Reaches.trans {G : Graph} {x y z : Nat}
    (h1 : Reaches G x y) (h2 : Reaches G y z) : Reaches G x z := by
  induction h1 with
  | refl => exact h2
  | step hmem _ ih => exact .step hmem (ih h2)

/-- A path stays inside a dependency-closed set. -/
theorem reaches_closed {G : Graph} {S : List Nat}
    (hcl : ∀ s ∈ S, ∀ d ∈ depsOf G s, d ∈ S) {x y : Nat}
    (h : Reaches G x y) (hx : x ∈ S) : y ∈ S := by
  induction h with
  | refl => exact hx
  | step hmem _ ih => exact ih (hcl _ hx _ hmem)

/-! ## `pushDeps` lemmas -/

theorem pushDeps_cons_true {d : Nat} {ds q s : List Nat} (h : s.contains d = true) :
    pushDeps (d :: ds) q s = pushDeps ds q s := by
  have hm : d ∈ s := by simpa using h
  simp [pushDeps, hm]

theorem pushDeps_cons_false {d : Nat} {ds q s : List Nat} (h : s.contains d = false) :
    pushDeps (d :: ds) q s = pushDeps ds (q ++ [d]) (s ++ [d]) := by
  have hm : d ∉ s := by simpa using h
  simp [pushDeps, hm]

theorem pushDeps_queue_extends :
    ∀ ds q s, ∃ t, (pushDeps ds q s).1 = q ++ t := by
  intro ds
  induction ds with
  | nil => intro q s; exact ⟨[], by simp [pushDeps]⟩
  | cons d ds ih =>
    intro q s
    cases h : s.contains d with
    | true => rw [pushDeps_cons_true h]; exact ih q s
    | false =>
      rw [pushDeps_cons_false h]
      obtain ⟨t, ht⟩ := ih (q ++ [d]) (s ++ [d])
      exact ⟨d :: t, by rw [ht]; simp⟩

theorem pushDeps_seen_extends :
    ∀ ds q s, ∃ t, (pushDeps ds q s).2 = s ++ t := by
  intro ds
  induction ds with
  | nil => intro q s; exact ⟨[], by simp [pushDeps]⟩
  | cons d ds ih =>
    intro q s
    cases h : s.contains d with
    | true => rw [pushDeps_cons_true h]; exact ih q s
    | false =>
      rw [pushDeps_cons_false h]
      obtain ⟨t, ht⟩ := ih (q ++ [d]) (s ++ [d])
      exact ⟨d :: t, by rw [ht]; simp⟩

theorem pushDeps_deps_seen :
    ∀ ds q s, ∀ d ∈ ds, d ∈ (pushDeps ds q s).2 := by
  intro ds
  induction ds with
  | nil => intro q s d hd; simp at hd
  | cons d0 ds ih =>
    intro q s d hd
    cases h : s.contains d0 with
    | true =>
      rw [pushDeps_cons_true h]
      rcases List.mem_cons.mp hd with h1 | h1
      · subst h1
        obtain ⟨t, ht⟩ := pushDeps_seen_extends ds q s
        rw [ht]
        exact List.mem_append_left t (by simpa using h)
      · exact ih q s d h1
    | false =>
      rw [pushDeps_cons_false h]
      rcases List.mem_cons.mp hd with h1 | h1
      · subst h1
        obtain ⟨t, ht⟩ := pushDeps_seen_extends ds (q ++ [d]) (s ++ [d])
        rw [ht]
        exact List.mem_append_left t (by simp)
      · exact ih (q ++ [d0]) (s ++ [d0]) d h1

theorem pushDeps_queue_origin :
    ∀ ds q s, ∀ x ∈ (pushDeps ds q s).1, x ∈ q ∨ x ∈ ds := by
  intro ds
  induction ds with
  | nil => intro q s x hx; left; simpa [pushDeps] using hx
  | cons d ds ih =>
    intro q s x hx
    cases h : s.contains d with
    | true =>
      rw [pushDeps_cons_true h] at hx
      rcases ih q s x hx with h1 | h1
      · exact Or.inl h1
      · exact Or.inr (List.mem_cons_of_mem d h1)
    | false =>
      rw [pushDeps_cons_false h] at hx
      rcases ih (q ++ [d]) (s ++ [d]) x hx with h1 | h1
      · rcases List.mem_append.mp h1 with h2 | h2
        · exact Or.inl h2
        · exact Or.inr (by simp at h2; simp [h2])
      · exact Or.inr (List.mem_cons_of_mem d h1)

theorem pushDeps_seen_origin :
    ∀ ds q s, ∀ x ∈ (pushDeps ds q s).2, x ∈ s ∨ x ∈ (pushDeps ds q s).1 := by
  intro ds
  induction ds with
  | nil => intro q s x hx; left; simpa [pushDeps] using hx
  | cons d ds ih =>
    intro q s x hx
    cases h : s.contains d with
    | true =>
      rw [pushDeps_cons_true h] at hx ⊢
      exact ih q s x hx
    | false =>
      rw [pushDeps_cons_false h] at hx ⊢
      rcases ih (q ++ [d]) (s ++ [d]) x hx with h1 | h1
      · rcases List.mem_append.mp h1 with h2 | h2
        · exact Or.inl h2
        · right
          obtain ⟨t, ht⟩ := pushDeps_queue_extends ds (q ++ [d]) (s ++ [d])
          rw [ht]
          simp at h2
          simp [h2]
      · exact Or.inr h1

theorem pushDeps_measure (T : Finset Nat) :
    ∀ ds q s, (∀ d ∈ ds, d ∈ T) →
      (pushDeps ds q s).1.length + (T \ (pushDeps ds q s).2.toFinset).card ≤
        q.length + (T \ s.toFinset).card := by
  intro ds
  induction ds with
  | nil => intro q s _; simp [pushDeps]
  | cons d ds ih =>
    intro q s hsub
    cases h : s.contains d with
    | true =>
      rw [pushDeps_cons_true h]
      exact ih q s (fun x hx => hsub x (List.mem_cons_of_mem d hx))
    | false =>
      rw [pushDeps_cons_false h]
      have hdT : d ∈ T := hsub d (List.mem_cons_self d ds)
      have hds : d ∉ s.toFinset := by
        simp only [List.mem_toFinset]
        intro hc
        have : s.contains d = true := by simpa using hc
        rw [this] at h
        cases h
      have hmemdiff : d ∈ T \ s.toFinset := Finset.mem_sdiff.mpr ⟨hdT, hds⟩
      have hset : (s ++ [d]).toFinset = insert d s.toFinset := by
        simp [List.toFinset_append]
        exact Finset.union_comm _ _
      have hsd : T \ (s ++ [d]).toFinset = (T \ s.toFinset).erase d := by
        rw [hset, Finset.sdiff_insert]
      have hcard : ((T \ s.toFinset).erase d).card + 1 = (T \ s.toFinset).card :=
        Finset.card_erase_add_one hmemdiff
      have hrec := ih (q ++ [d]) (s ++ [d]) (fun x hx => hsub x (List.mem_cons_of_mem d hx))
      rw [hsd] at hrec
      simp only [List.length_append, List.length_cons, List.length_nil] at hrec
      omega

/-! ## Completeness of the worklist search -/

/-- If some seen cell reaches `self`, the worklist search finds `self`,
provided the fuel dominates the measure (queue length plus unseen
dependency targets), every queued cell is seen, and every seen cell that
is no longer queued has been processed (it differed from `self` and its
dependencies were pushed). -/
theorem cycleSearch_complete (G : Graph) (self : Nat) :
    ∀ fuel queue seen,
      queue.length + ((depTargets G).toFinset \ seen.toFinset).card < fuel →
      (∀ q ∈ queue, q ∈ seen) →
      (∀ s ∈ seen, s ∉ queue → s ≠ self ∧ ∀ d ∈ depsOf G s, d ∈ seen) →
      (∃ x ∈ seen, Reaches G x self) →
      cycleSearch G self fuel queue seen = true := by
  intro fuel
  induction fuel with
  | zero => intro queue seen hfuel _ _ _; omega
  | succ fuel ih =>
    intro queue seen hfuel hsub hproc hreach
    cases queue with
    | nil =>
      exfalso
      obtain ⟨x, hx, hr⟩ := hreach
      have hclosed : ∀ s ∈ seen, ∀ d ∈ depsOf G s, d ∈ seen :=
        fun s hs => (hproc s hs (by simp)).2
      have hselfmem : self ∈ seen := reaches_closed hclosed hr hx
      exact (hproc self hselfmem (by simp)).1 rfl
    | cons r rest =>
      by_cases hrself : r = self
      · simp [cycleSearch, hrself]
      · have hstep : cycleSearch G self (fuel + 1) (r :: rest) seen =
            cycleSearch G self fuel (pushDeps (depsOf G r) rest seen).1
              (pushDeps (depsOf G r) rest seen).2 := by
          simp [cycleSearch, hrself]
        rw [hstep]
        have hrseen : r ∈ seen := hsub r (by simp)
        have hdT : ∀ d ∈ depsOf G r, d ∈ (depTargets G).toFinset :=
          fun d hd => List.mem_toFinset.mpr (mem_depTargets hd)
        obtain ⟨tq, htq⟩ := pushDeps_queue_extends (depsOf G r) rest seen
        obtain ⟨ts, hts⟩ := pushDeps_seen_extends (depsOf G r) rest seen
        apply ih
        · have hm := pushDeps_measure (depTargets G).toFinset (depsOf G r) rest seen hdT
          simp only [List.length_cons] at hfuel
          omega
        · intro q hq
          rcases pushDeps_queue_origin (depsOf G r) rest seen q hq with h1 | h1
          · rw [hts]
            exact List.mem_append_left ts (hsub q (List.mem_cons_of_mem r h1))
          · exact pushDeps_deps_seen (depsOf G r) rest seen q h1
        · intro x hx hxq
          rcases pushDeps_seen_origin (depsOf G r) rest seen x hx with h1 | h1
          · by_cases hxr : x = r
            · refine ⟨?_, ?_⟩
              · rw [hxr]; exact hrself
              · rw [hxr]
                exact fun d hd => pushDeps_deps_seen (depsOf G r) rest seen d hd
            · by_cases hxrest : x ∈ rest
              · exfalso
                apply hxq
                rw [htq]
                exact List.mem_append_left tq hxrest
              · have hxqueue : x ∉ r :: rest := by
                  intro hc
                  rcases List.mem_cons.mp hc with hc1 | hc1
                  · exact hxr hc1
                  · exact hxrest hc1
                obtain ⟨hne, hdeps⟩ := hproc x h1 hxqueue
                refine ⟨hne, fun d hd => ?_⟩
                rw [hts]
                exact List.mem_append_left ts (hdeps d hd)
          · exact absurd h1 hxq
        · obtain ⟨x, hx, hr⟩ := hreach
          refine ⟨x, ?_, hr⟩
          rw [hts]
          exact List.mem_append_left ts hx

/-- Reachability implies the source's cycle check fires. -/
theorem introducesCycle_complete {G : Graph} {self another : Nat}
    (h : Reaches G another self) : introducesCycle G self another = true := by
  unfold introducesCycle
  by_cases he : another = self
  · simp [he]
  · rw [if_neg he]
    apply cycleSearch_complete
    · have hle : ((depTargets G).toFinset \ [another].toFinset).card ≤
          (depTargets G).toFinset.card :=
        Finset.card_le_card (Finset.sdiff_subset)
      simp only [List.length_cons, List.length_nil]
      omega
    · intro q hq; simpa using hq
    · intro x hx hxq
      exfalso
      exact hxq (by simpa using hx)
    · exact ⟨another, by simp, h⟩

/-- A cell always introduces a cycle with itself. -/
theorem introducesCycle_self (G : Graph) (x : Nat) : introducesCycle G x x = true := by
  simp [introducesCycle]

/-- Decomposing a path in the graph with one extra edge `s → a`:
either the path avoids the new edge, or it reaches `s` in the old graph
and continues from `a`. -/
theorem reaches_insertEdge {G : Graph} {s a u v : Nat}
    (h : Reaches (insertEdge G s a) u v) :
    Reaches G u v ∨ (Reaches G u s ∧ Reaches G a v) := by
  induction h with
  | refl x => exact Or.inl (.refl x)
  | @step x y z hmem _ ih =>
    rw [depsOf_insertEdge] at hmem
    by_cases hx : x = s
    · subst hx
      rw [if_pos rfl] at hmem
      rcases List.mem_append.mp hmem with hy | hy
      · rcases ih with h1 | ⟨h1, h2⟩
        · exact Or.inl (.step hy h1)
        · exact Or.inr ⟨.step hy h1, h2⟩
      · have hya : y = a := by simpa using hy
        subst hya
        rcases ih with h1 | ⟨h1, h2⟩
        · exact Or.inr ⟨.refl x, h1⟩
        · exact Or.inr ⟨.refl x, h2⟩
    · rw [if_neg hx] at hmem
      rcases ih with h1 | ⟨h1, h2⟩
      · exact Or.inl (.step hmem h1)
      · exact Or.inr ⟨.step hmem h1, h2⟩

/-- Inserting an edge that passed the cycle check preserves acyclicity. -/
theorem acyclic_insertEdge {G : Graph} {s a : Nat} (hG : Acyclic G)
    (hno : ¬ Reaches G a s) : Acyclic (insertEdge G s a) := by
  intro x y hmem hreach
  rw [depsOf_insertEdge] at hmem
  by_cases hx : x = s
  · subst hx
    rw [if_pos rfl] at hmem
    rcases List.mem_append.mp hmem with hy | hy
    · rcases reaches_insertEdge hreach with h1 | ⟨h1, h2⟩
      · exact hG x y hy h1
      · exact hno h2
    · have hya : y = a := by simpa using hy
      subst hya
      rcases reaches_insertEdge hreach with h1 | ⟨h1, h2⟩
      · exact hno h1
      · exact hno h1
  · rw [if_neg hx] at hmem
    rcases reaches_insertEdge hreach with h1 | ⟨h1, h2⟩
    · exact hG x y hmem h1
    · exact hno (h2.trans (.step hmem h1))

/-! ## Claim C1 -/

/-- C1: for Computed cells A, B, C with recorded edges A → B and B → C,
calling `dependsOn` on C with argument A fails fatally before the edge is
recorded; `introducesCycle` applied by a cell to itself always returns
true; and any edge insertion that `dependsOn` accepts preserves
acyclicity, so the recorded dependency graph is a DAG at all times. -/
theorem C1_cycle_detection :
    (∀ (G : Graph) (A B C : Nat), B ∈ depsOf G A → C ∈ depsOf G B →
        dependsOn G C A = none) ∧
    (∀ (G : Graph) (x : Nat), introducesCycle G x x = true) ∧
    (∀ (G GG : Graph) (s a : Nat), Acyclic G → dependsOn G s a = some GG →
        Acyclic GG) := by
  refine ⟨?_, introducesCycle_self, ?_⟩
  · intro G A B C hAB hBC
    have hreach : Reaches G A C := .step hAB (.step hBC (.refl C))
    have hcyc := introducesCycle_complete hreach
    simp [dependsOn, hcyc]
  · intro G GG s a hG hdep
    unfold dependsOn at hdep
    by_cases hc : introducesCycle G s a = true
    · simp [hc] at hdep
    · rw [if_neg hc] at hdep
      have hGG : insertEdge G s a = GG := by
        simpa using hdep
      rw [← hGG]
      apply acyclic_insertEdge hG
      intro hre
      exact hc (introducesCycle_complete hre)

theorem C1_cycle_detection_witness :
    (1 ∈ depsOf [(0, [1]), (1, [2])] 0) ∧ (2 ∈ depsOf [(0, [1]), (1, [2])] 1) ∧
    dependsOn [(0, [1]), (1, [2])] 2 0 = none ∧
    introducesCycle [] 5 5 = true ∧
    Acyclic ([] : Graph) ∧ dependsOn ([] : Graph) 1 2 = some [(1, [2])] ∧
    Acyclic [(1, [2])] := by
  have hacy : Acyclic ([] : Graph) := by
    intro x y hy
    simp [depsOf_nil] at hy
  have hdep : dependsOn ([] : Graph) 1 2 = some [(1, [2])] := by decide
  exact ⟨by decide, by decide,
    C1_cycle_detection.1 _ 0 1 2 (by decide) (by decide),
    C1_cycle_detection.2.1 [] 5, hacy, hdep,
    C1_cycle_detection.2.2 [] [(1, [2])] 1 2 hacy hdep⟩

/-! ## Claim C2 -/

/-- C2 counterexample: in one drain cycle starting with queue `[0, 1]`,
observer 1 re-schedules observer 0 after observer 0 has already run (and
been deleted from the de-duplication set), so observer 0 runs twice within
the same drain — refuting "each observer runs exactly once even if it is
re-scheduled mid-drain". -/
theorem C2_counterexample :
    (Zone.processQueues (fun n => if n = 1 then [Zone.Op.schedObs 0] else []) 5
        ⟨[0, 1], [0, 1], [], true, none⟩).map Prod.snd =
      some [Zone.Ev.obs 0, Zone.Ev.obs 1, Zone.Ev.obs 0] ∧
    ([Zone.Ev.obs 0, Zone.Ev.obs 1, Zone.Ev.obs 0].count (Zone.Ev.obs 0)) = 2 :=
  ⟨by decide, by decide⟩

/-- C2 (amended): within one drain cycle, all currently-queued observers
run (as a prefix of observer events) before any action runs; a schedule
request for an observer that is still in the observer set collapses into
the already-queued run (but an observer re-scheduled after its run
completed is enqueued anew and may run again in the same drain); and
actions run in FIFO order relative to each other — the executed action
sequence is exactly the initially queued actions followed by every action
scheduled during the drain, in scheduling order. -/
theorem C2_drain_ordering :
    (∀ env fuel (z zEnd : ZoneState) evs,
        Zone.processQueues env fuel z = some (zEnd, evs) →
        ∃ n, ((evs.take n).all Zone.Ev.isObs = true) ∧
          ∀ o ∈ z.observerQueue, Zone.Ev.obs o ∈ evs.take n) ∧
    (∀ (z : ZoneState) (o : Nat), z.observerSet.contains o = true →
        Zone.scheduleObserver z o = z) ∧
    (∀ env fuel (z zEnd : ZoneState) evs,
        Zone.processQueues env fuel z = some (zEnd, evs) →
        evs.filterMap Zone.Ev.actOf = z.actionQueue ++ Zone.schedLog env evs) := by
  refine ⟨?_, ?_, ?_⟩
  · intro env fuel z zEnd evs h
    exact Zone.processQueues_observers_first env fuel z zEnd evs h
  · intro z o h
    have hm : o ∈ z.observerSet := by simpa using h
    simp [Zone.scheduleObserver, hm]
  · intro env fuel z zEnd evs h
    exact Zone.processQueues_actions_fifo env fuel z zEnd evs h

theorem C2_drain_ordering_witness :
    (Zone.processQueues (fun _ => []) 3 ⟨[3], [3], [9], true, none⟩ =
        some (⟨[], [], [], false, none⟩, [Zone.Ev.obs 3, Zone.Ev.act 9])) ∧
    (∃ n, (([Zone.Ev.obs 3, Zone.Ev.act 9].take n).all Zone.Ev.isObs = true) ∧
        ∀ o ∈ ([3] : List Nat), Zone.Ev.obs o ∈ [Zone.Ev.obs 3, Zone.Ev.act 9].take n) ∧
    (([3] : List Nat).contains 3 = true) ∧
    (Zone.scheduleObserver ⟨[3], [3], [], true, none⟩ 3 = ⟨[3], [3], [], true, none⟩) ∧
    ([Zone.Ev.obs 3, Zone.Ev.act 9].filterMap Zone.Ev.actOf =
      [9] ++ Zone.schedLog (fun _ => []) [Zone.Ev.obs 3, Zone.Ev.act 9]) := by
  have h : Zone.processQueues (fun _ => []) 3 ⟨[3], [3], [9], true, none⟩ =
      some (⟨[], [], [], false, none⟩, [Zone.Ev.obs 3, Zone.Ev.act 9]) := by decide
  exact ⟨h, C2_drain_ordering.1 _ 3 _ _ _ h, by decide,
    C2_drain_ordering.2.1 _ 3 (by decide), C2_drain_ordering.2.2 _ 3 _ _ _ h⟩

/-! ## Claims C3 and C9 -/

/-- C3: `setValue` with a value equal (under the JS equality test) to the
current value is a no-op — no observer notified, and no type check
performed beyond the equality test itself (no `isInstance` hypothesis is
needed for that case); `setValue` with a differing value that passes the
type check stores the value and notifies every registered observer. -/
theorem C3_setValue_equality_suppression :
    (∀ (cell : BoxedCell) (v : Val), isRef v = false → jsEq v cell.value = true →
        setValue cell v = .ok (cell, [])) ∧
    (∀ (cell : BoxedCell) (v : Val), isRef v = false → jsEq v cell.value = false →
        cell.ty.isInstance v = true →
        setValue cell v = .ok ({ cell with value := v }, cell.observers)) := by
  constructor
  · intro cell v h1 h2
    simp [setValue, h1, h2]
  · intro cell v h1 h2 h3
    simp [setValue, h1, h2, h3]

theorem C3_setValue_equality_suppression_witness :
    (isRef (Val.str "x") = false ∧ jsEq (Val.str "x") (Val.str "x") = true ∧
      setValue ⟨Val.str "x", Ty.integer, [7]⟩ (Val.str "x") =
        .ok (⟨Val.str "x", Ty.integer, [7]⟩, [])) ∧
    (isRef (Val.int 5) = false ∧ jsEq (Val.int 5) (Val.int 68) = false ∧
      Ty.isInstance Ty.integer (Val.int 5) = true ∧
      setValue ⟨Val.int 68, Ty.integer, [7, 8]⟩ (Val.int 5) =
        .ok (⟨Val.int 5, Ty.integer, [7, 8]⟩, [7, 8])) :=
  ⟨⟨by decide, by decide,
      C3_setValue_equality_suppression.1 ⟨Val.str "x", Ty.integer, [7]⟩ (Val.str "x")
        (by decide) (by decide)⟩,
   ⟨by decide, by decide, by decide,
      C3_setValue_equality_suppression.2 ⟨Val.int 68, Ty.integer, [7, 8]⟩ (Val.int 5)
        (by decide) (by decide) (by decide)⟩⟩

/-- C9: `setValue` with a `Reference` argument panics before the equality
test and before any type check — even when the argument would compare
equal to the current value — leaving the cell unchanged (the panic throws
before any mutation). -/
theorem C9_setValue_reference_panics :
    ∀ (cell : BoxedCell) (v : Val), isRef v = true →
      setValue cell v = .error .refValue := by
  intro cell v h
  simp [setValue, h]

theorem C9_setValue_reference_panics_witness :
    isRef (Val.ref 3) = true ∧ jsEq (Val.ref 3) (Val.ref 3) = true ∧
    setValue ⟨Val.ref 3, Ty.object, [7]⟩ (Val.ref 3) = .error .refValue :=
  ⟨by decide, by decide, C9_setValue_reference_panics ⟨Val.ref 3, Ty.object, [7]⟩ (Val.ref 3) (by decide)⟩

/-! ## Claim C10 -/

/-- C10: while an observer is suppressed in a Zone, a `scheduleObserver`
call for it is discarded outright — the zone state (queues included) is
unchanged — and `internalUnsuppressObserver` merely clears the slot, so
notifications dropped during the suppression window are never deferred or
replayed. -/
theorem C10_suppression_discards :
    ∀ (z : ZoneState) (o : Nat), z.suppressedObserver = some o →
      Zone.scheduleObserver z o = z ∧
      Zone.internalUnsuppressObserver z o = some { z with suppressedObserver := none } := by
  intro z o h
  constructor
  · simp [Zone.scheduleObserver, h]
  · simp [Zone.internalUnsuppressObserver, h]

theorem C10_suppression_discards_witness :
    ((⟨[], [], [], false, some 4⟩ : ZoneState).suppressedObserver = some 4) ∧
    (Zone.scheduleObserver ⟨[], [], [], false, some 4⟩ 4 = ⟨[], [], [], false, some 4⟩ ∧
      Zone.internalUnsuppressObserver ⟨[], [], [], false, some 4⟩ 4 =
        some ⟨[], [], [], false, none⟩) :=
  ⟨rfl, C10_suppression_discards ⟨[], [], [], false, some 4⟩ 4 rfl⟩

/-! ## Datastore lemmas (for C7) -/

theorem lookup_of_mem_nodup {members : List (String × DSMember)} {f : String} {m : DSMember}
    (hnd : (members.map Prod.fst).Nodup) (hmem : (f, m) ∈ members) :
    members.lookup f = some m := by
  induction members with
  | nil => simp at hmem
  | cons p rest ih =>
    obtain ⟨n, m0⟩ := p
    simp only [List.map_cons, List.nodup_cons] at hnd
    obtain ⟨hn, hnd2⟩ := hnd
    rcases List.mem_cons.mp hmem with h1 | h1
    · rw [Prod.mk.injEq] at h1
      obtain ⟨h1a, h1b⟩ := h1
      subst h1a
      subst h1b
      simp [List.lookup]
    · have hfn : f ≠ n := by
        intro hc
        subst hc
        exact hn (List.mem_map.mpr ⟨(f, m), h1, rfl⟩)
      have hb : (f == n) = false := beq_eq_false_iff_ne.mpr hfn
      simp only [List.lookup, hb]
      exact ih hnd2 h1

theorem mem_getFields_iff (members : List (String × DSMember)) (f : String) :
    f ∈ Datastore.getFields members ↔
      ∃ m, (f, m) ∈ members ∧ m.kind = RefKind.boxed ∧
        Datastore.isSerializeble m.ty = true := by
  unfold Datastore.getFields
  rw [List.mem_map]
  constructor
  · rintro ⟨⟨n, m⟩, hmem, hfst⟩
    rw [List.mem_filter] at hmem
    obtain ⟨hmem, hp⟩ := hmem
    simp only [Bool.and_eq_true, beq_iff_eq] at hp
    cases hfst
    exact ⟨m, hmem, hp.1, hp.2⟩
  · rintro ⟨m, hmem, hk, hs⟩
    refine ⟨(f, m), ?_, rfl⟩
    rw [List.mem_filter]
    exact ⟨hmem, by simp [hk, hs]⟩

/-- A value accepted by a serializable type is never a `Reference`. -/
theorem serializable_not_ref {t : Ty} {v : Val}
    (hs : Datastore.isSerializeble t = true) (hi : t.isInstance v = true) :
    isRef v = false := by
  cases t <;> cases v <;> simp_all [Datastore.isSerializeble, Ty.isInstance, isRef]

theorem lookup_mapped_fields (g : String → Val) :
    ∀ (fields : List String) (f : String), f ∈ fields →
      ((fields.map fun x => (x, g x)).lookup f) = some (g f) := by
  intro fields
  induction fields with
  | nil => intro f hf; simp at hf
  | cons x rest ih =>
    intro f hf
    by_cases hfx : f = x
    · subst hfx
      simp [List.lookup]
    · have hb : (f == x) = false := beq_eq_false_iff_ne.mpr hfx
      rcases List.mem_cons.mp hf with h1 | h1
      · exact absurd h1 hfx
      · simp only [List.map_cons, List.lookup, hb]
        exact ih f h1

/-- Writing back a serializable field's own value is a no-op write. -/
theorem setValue_own_value {members : List (String × DSMember)}
    (hnd : (members.map Prod.fst).Nodup)
    (hwt : ∀ p ∈ members, p.2.ty.isInstance p.2.value = true)
    {f : String} (hf : f ∈ Datastore.getFields members) :
    Datastore.setValue members f (Datastore.memberValue members f) = some members := by
  obtain ⟨m, hmem, hk, hs⟩ := (mem_getFields_iff members f).mp hf
  have hlk : members.lookup f = some m := lookup_of_mem_nodup hnd hmem
  have hv : Datastore.memberValue members f = m.value := by
    simp [Datastore.memberValue, hlk]
  rw [hv]
  unfold Datastore.setValue
  rw [hlk]
  have hnr : isRef m.value = false := serializable_not_ref hs (hwt (f, m) hmem)
  simp [hk, hnr, jsEq_refl]

theorem fromJsonFields_id {members : List (String × DSMember)} {data : List (String × Val)} :
    ∀ fields,
      (∀ f ∈ fields, data.lookup f = some (Datastore.memberValue members f) ∧
        Datastore.setValue members f (Datastore.memberValue members f) = some members) →
      Datastore.fromJsonFields fields data members = some members := by
  intro fields
  induction fields with
  | nil => intro _; rfl
  | cons f rest ih =>
    intro h
    obtain ⟨hd, hset⟩ := h f (by simp)
    simp only [Datastore.fromJsonFields, hd, hset]
    exact ih (fun g hg => h g (List.mem_cons_of_mem f hg))

/-! ## Claim C7 -/

/-- C7: for a Datastore whose member names are unique (the Namespace
panics on duplicates) and whose stored values satisfy their declared types
(checked at construction), `fromJson (toJson)` reproduces the datastore
exactly — every serializable field keeps its original value and nothing
else is touched; the serialized record's keys are exactly `getFields`,
the Boxed members of boolean/string/integer type, so non-Boxed members
and members of other types are excluded from both directions. -/
theorem C7_roundtrip :
    ∀ (members : List (String × DSMember)),
      (members.map Prod.fst).Nodup →
      (∀ p ∈ members, p.2.ty.isInstance p.2.value = true) →
      Datastore.fromJson members (Datastore.toJson members) = some members ∧
      (Datastore.toJson members).map Prod.fst = Datastore.getFields members ∧
      (∀ f, f ∈ Datastore.getFields members ↔
        ∃ m, (f, m) ∈ members ∧ m.kind = RefKind.boxed ∧
          Datastore.isSerializeble m.ty = true) := by
  intro members hnd hwt
  refine ⟨?_, ?_, fun f => mem_getFields_iff members f⟩
  · unfold Datastore.fromJson
    apply fromJsonFields_id
    intro f hf
    exact ⟨lookup_mapped_fields _ _ f hf, setValue_own_value hnd hwt hf⟩
  · simp only [Datastore.toJson, List.map_map]
    exact List.map_id _ ▸ rfl

theorem C7_roundtrip_witness :
    (([("state", ⟨RefKind.boxed, Ty.integer, Val.int 68⟩),
       ("increment", ⟨RefKind.constant, Ty.fnTy, Val.fn 1⟩),
       ("reset", ⟨RefKind.constant, Ty.fnTy, Val.fn 2⟩)] :
        List (String × DSMember)).map Prod.fst).Nodup ∧
    (∀ p ∈ ([("state", ⟨RefKind.boxed, Ty.integer, Val.int 68⟩),
       ("increment", ⟨RefKind.constant, Ty.fnTy, Val.fn 1⟩),
       ("reset", ⟨RefKind.constant, Ty.fnTy, Val.fn 2⟩)] :
        List (String × DSMember)), p.2.ty.isInstance p.2.value = true) ∧
    (Datastore.fromJson
        [("state", ⟨RefKind.boxed, Ty.integer, Val.int 68⟩),
         ("increment", ⟨RefKind.constant, Ty.fnTy, Val.fn 1⟩),
         ("reset", ⟨RefKind.constant, Ty.fnTy, Val.fn 2⟩)]
        (Datastore.toJson
          [("state", ⟨RefKind.boxed, Ty.integer, Val.int 68⟩),
           ("increment", ⟨RefKind.constant, Ty.fnTy, Val.fn 1⟩),
           ("reset", ⟨RefKind.constant, Ty.fnTy, Val.fn 2⟩)]) =
      some [("state", ⟨RefKind.boxed, Ty.integer, Val.int 68⟩),
            ("increment", ⟨RefKind.constant, Ty.fnTy, Val.fn 1⟩),
            ("reset", ⟨RefKind.constant, Ty.fnTy, Val.fn 2⟩)] ∧
     (Datastore.toJson
        [("state", ⟨RefKind.boxed, Ty.integer, Val.int 68⟩),
         ("increment", ⟨RefKind.constant, Ty.fnTy, Val.fn 1⟩),
         ("reset", ⟨RefKind.constant, Ty.fnTy, Val.fn 2⟩)]).map Prod.fst =
       Datastore.getFields
        [("state", ⟨RefKind.boxed, Ty.integer, Val.int 68⟩),
         ("increment", ⟨RefKind.constant, Ty.fnTy, Val.fn 1⟩),
         ("reset", ⟨RefKind.constant, Ty.fnTy, Val.fn 2⟩)] ∧
     (∀ f, f ∈ Datastore.getFields
        [("state", ⟨RefKind.boxed, Ty.integer, Val.int 68⟩),
         ("increment", ⟨RefKind.constant, Ty.fnTy, Val.fn 1⟩),
         ("reset", ⟨RefKind.constant, Ty.fnTy, Val.fn 2⟩)] ↔
       ∃ m, (f, m) ∈ ([("state", ⟨RefKind.boxed, Ty.integer, Val.int 68⟩),
         ("increment", ⟨RefKind.constant, Ty.fnTy, Val.fn 1⟩),
         ("reset", ⟨RefKind.constant, Ty.fnTy, Val.fn 2⟩)] :
          List (String × DSMember)) ∧ m.kind = RefKind.boxed ∧
         Datastore.isSerializeble m.ty = true)) :=
  ⟨by decide, by decide, C7_roundtrip _ (by decide) (by decide)⟩

/-! ## Claim C4 -/

/-- C4 counterexample: starting from an idle active sync engine, a field
write runs the datastore observer (scheduling a push action), a second
write re-runs the observer before the action phase — `isRequestInProgress`
is still false, so a second push action is scheduled — and the two queued
push actions then each start a transport request unconditionally: two
requests are outstanding at once, refuting "at most one transport request
is outstanding at any time". -/
theorem C4_counterexample :
    (Sync.run
        ⟨[⟨"state", Ty.integer, Val.int 0⟩], SyncStatus.online, true, true, true, false,
          false, [], [], [], [ActTag.startSync], none, []⟩
        [Sync.SyncEvent.writeField "state" (Val.int 1), Sync.SyncEvent.runObserver,
         Sync.SyncEvent.writeField "state" (Val.int 2), Sync.SyncEvent.runObserver,
         Sync.SyncEvent.runAction, Sync.SyncEvent.runAction]).map Sys.inFlight =
      some [ReqKind.push, ReqKind.push] := by decide

/-- C4 (amended): `isRequestInProgress` gates only the scheduling of push
actions at notification time — while a request is in progress a datastore
change just records `shouldPush` and schedules nothing, and while no
request is in progress each notification schedules a push action; since
`startPushRequest` itself starts a transport request without re-checking
the flag, several notifications before the first scheduled push action
runs can leave several requests outstanding. -/
theorem C4_flag_gates_scheduling :
    (∀ s : Sys, s.isRequestInProgress = true →
        Sync.datastoreChanged s = { s with shouldPush := true }) ∧
    (∀ s : Sys, s.isRequestInProgress = false →
        Sync.datastoreChanged s =
          { s with shouldPush := true,
                   actionQueue := s.actionQueue ++ [ActTag.pushRequestClosure] }) ∧
    (∀ s : Sys, (Sync.startPushRequest s).inFlight = s.inFlight ++ [ReqKind.push]) := by
  refine ⟨?_, ?_, fun s => rfl⟩
  · intro s h
    simp [Sync.datastoreChanged, Sync.scheduleAction, h]
  · intro s h
    simp [Sync.datastoreChanged, Sync.scheduleAction, h]

theorem C4_flag_gates_scheduling_witness :
    ((⟨[], SyncStatus.online, true, true, false, true, false, [], [], [], [], none,
        [ReqKind.pull]⟩ : Sys).isRequestInProgress = true ∧
      Sync.datastoreChanged
        ⟨[], SyncStatus.online, true, true, false, true, false, [], [], [], [], none,
          [ReqKind.pull]⟩ =
        ⟨[], SyncStatus.online, true, true, false, true, true, [], [], [], [], none,
          [ReqKind.pull]⟩) ∧
    ((⟨[], SyncStatus.online, true, true, false, false, false, [], [], [], [], none,
        []⟩ : Sys).isRequestInProgress = false ∧
      Sync.datastoreChanged
        ⟨[], SyncStatus.online, true, true, false, false, false, [], [], [], [], none, []⟩ =
        ⟨[], SyncStatus.online, true, true, false, false, true, [], [],
          [ActTag.pushRequestClosure], [], none, []⟩) :=
  ⟨⟨rfl, C4_flag_gates_scheduling.1 _ rfl⟩, ⟨rfl, C4_flag_gates_scheduling.2.1 _ rfl⟩⟩

/-! ## Sync lemmas (for C5) -/

theorem lookupField_name :
    ∀ (st : List FieldCell) (n : String) (c : FieldCell),
      Sync.lookupField st n = some c → c.name = n := by
  intro st
  induction st with
  | nil => intro n c h; simp [Sync.lookupField] at h
  | cons c0 rest ih =>
    intro n c h
    by_cases hn : c0.name = n
    · simp only [Sync.lookupField, if_pos hn, Option.some.injEq] at h
      rw [← h]
      exact hn
    · simp only [Sync.lookupField, if_neg hn] at h
      exact ih n c h

theorem lookupField_mem :
    ∀ (st : List FieldCell) (n : String) (c : FieldCell),
      Sync.lookupField st n = some c → c ∈ st := by
  intro st
  induction st with
  | nil => intro n c h; simp [Sync.lookupField] at h
  | cons c0 rest ih =>
    intro n c h
    by_cases hn : c0.name = n
    · simp only [Sync.lookupField, if_pos hn, Option.some.injEq] at h
      rw [← h]
      exact List.mem_cons_self c0 rest
    · simp only [Sync.lookupField, if_neg hn] at h
      exact List.mem_cons_of_mem c0 (ih n c h)

theorem fieldNames_lookup :
    ∀ (st : List FieldCell) (n : String), n ∈ Sync.fieldNames st →
      ∃ c, Sync.lookupField st n = some c ∧ c ∈ st := by
  intro st
  induction st with
  | nil => intro n h; simp [Sync.fieldNames] at h
  | cons c0 rest ih =>
    intro n h
    by_cases hn : c0.name = n
    · exact ⟨c0, by simp [Sync.lookupField, hn], List.mem_cons_self c0 rest⟩
    · simp only [Sync.fieldNames, List.map_cons, List.mem_cons] at h
      rcases h with h1 | h1
      · exact absurd h1.symm hn
      · obtain ⟨c, hlk, hmem⟩ := ih n h1
        exact ⟨c, by simp [Sync.lookupField, hn, hlk], List.mem_cons_of_mem c0 hmem⟩

theorem lookupField_updateField_self :
    ∀ (st : List FieldCell) (n : String) (v : Val) (c : FieldCell),
      Sync.lookupField st n = some c →
      Sync.lookupField (Sync.updateField st n v) n = some { c with value := v } := by
  intro st
  induction st with
  | nil => intro n v c h; simp [Sync.lookupField] at h
  | cons c0 rest ih =>
    intro n v c h
    by_cases hn : c0.name = n
    · simp only [Sync.lookupField, if_pos hn, Option.some.injEq] at h
      simp only [Sync.updateField, if_pos hn, Sync.lookupField]
      rw [h]
    · simp only [Sync.lookupField, if_neg hn] at h
      simp only [Sync.updateField, if_neg hn, Sync.lookupField, if_neg hn]
      exact ih n v c h

theorem lookupField_updateField_other :
    ∀ (st : List FieldCell) (n : String) (v : Val) (n2 : String), n2 ≠ n →
      Sync.lookupField (Sync.updateField st n v) n2 = Sync.lookupField st n2 := by
  intro st
  induction st with
  | nil => intro n v n2 _; rfl
  | cons c0 rest ih =>
    intro n v n2 hne
    by_cases hn : c0.name = n
    · have hn2 : ¬ c0.name = n2 := by
        rw [hn]
        exact fun hc => hne hc.symm
      simp only [Sync.updateField, if_pos hn, Sync.lookupField]
      rw [if_neg hn2, if_neg hn2]
    · simp only [Sync.updateField, if_neg hn, Sync.lookupField]
      by_cases hn2 : c0.name = n2
      · rw [if_pos hn2, if_pos hn2]
      · rw [if_neg hn2, if_neg hn2]
        exact ih n v n2 hne

theorem scheduleObserver_suppressed {s : Sys}
    (h : s.suppressed = some ObsTag.datastoreObs) :
    Sync.scheduleObserver s ObsTag.datastoreObs = s := by
  simp [Sync.scheduleObserver, h]

/-- Under suppression of the datastore observer, the `fromJson` loop
succeeds, changes nothing but the store, and performs on the store
exactly the pure `applyStore` update. -/
theorem fromJsonGo_suppressed (data : List (String × Val)) :
    ∀ (names : List String) (s : Sys),
      s.suppressed = some ObsTag.datastoreObs →
      (∀ n ∈ names, ∃ c, Sync.lookupField s.store n = some c ∧
          Datastore.isSerializeble c.ty = true ∧
          ∃ v, data.lookup n = some v ∧ c.ty.isInstance v = true) →
      Sync.fromJsonGo names data s =
        some { s with store := Sync.applyStore names data s.store } := by
  intro names
  induction names with
  | nil => intro s _ _; simp [Sync.fromJsonGo, Sync.applyStore]
  | cons n rest ih =>
    intro s hsup hinv
    obtain ⟨c, hlk, hser, v, hvd, hvt⟩ := hinv n (by simp)
    have hnr : isRef v = false := serializable_not_ref hser hvt
    by_cases heq : jsEq v c.value = true
    · have hstep : Sync.setField s n v = some s := by
        simp [Sync.setField, hlk, hnr, heq]
      have happly : Sync.applyStore (n :: rest) data s.store =
          Sync.applyStore rest data s.store := by
        simp [Sync.applyStore, hvd, hlk, hnr, heq]
      simp only [Sync.fromJsonGo, hvd, hstep]
      rw [happly]
      exact ih s hsup (fun m hm => hinv m (List.mem_cons_of_mem n hm))
    · have heqf : jsEq v c.value = false := by
        cases hj : jsEq v c.value
        · rfl
        · exact absurd hj heq
      have hsup2 : (Sys.suppressed
          { s with store := Sync.updateField s.store n v }) = some ObsTag.datastoreObs := hsup
      have hstep : Sync.setField s n v =
          some { s with store := Sync.updateField s.store n v } := by
        simp [Sync.setField, hlk, hnr, heqf, hvt, scheduleObserver_suppressed hsup2]
      have happly : Sync.applyStore (n :: rest) data s.store =
          Sync.applyStore rest data (Sync.updateField s.store n v) := by
        simp [Sync.applyStore, hvd, hlk, hnr, heqf, hvt]
      simp only [Sync.fromJsonGo, hvd, hstep]
      rw [happly]
      have hinv2 : ∀ m ∈ rest, ∃ c2,
          Sync.lookupField (Sync.updateField s.store n v) m = some c2 ∧
          Datastore.isSerializeble c2.ty = true ∧
          ∃ w, data.lookup m = some w ∧ c2.ty.isInstance w = true := by
        intro m hm
        obtain ⟨c2, hlk2, hser2, w, hwd, hwt⟩ := hinv m (List.mem_cons_of_mem n hm)
        by_cases hmn : m = n
        · subst hmn
          rw [hlk] at hlk2
          have hc2 : c2 = c := by
            injection hlk2 with hh
            exact hh.symm
          subst hc2
          exact ⟨{ c2 with value := v }, lookupField_updateField_self s.store m v c2 hlk,
            hser2, w, hwd, hwt⟩
        · exact ⟨c2, by rw [lookupField_updateField_other s.store n v m hmn]; exact hlk2,
            hser2, w, hwd, hwt⟩
      exact ih { s with store := Sync.updateField s.store n v } hsup2 hinv2

/-! ## Claim C5 -/

/-- C5: when a pull completes successfully, `pullCallback` clears the
in-progress flag and applies the server payload to the Datastore while
the datastore-changed observer is suppressed in the Zone: the resulting
state differs from the initial one only in the store (updated exactly as
the pure `applyStore` function describes), the connectivity cell (set to
ONLINE), and the scheduling of the next sync cycle (`isRequestPending`
re-armed with a delayed `startSync`).  In particular `shouldPush`, the
observer queue and the action queue are unchanged: applying the pulled
snapshot never sets `shouldPush` and never triggers a push. -/
theorem C5_pull_applies_while_suppressed :
    ∀ (s : Sys) (data : List (String × Val)),
      s.suppressed = none →
      s.isRequestPending = false →
      (∀ c ∈ s.store, Datastore.isSerializeble c.ty = true) →
      (∀ c ∈ s.store, ∃ v, data.lookup c.name = some v ∧ c.ty.isInstance v = true) →
      Sync.pullCallback s data =
        some { s with isRequestInProgress := false,
                      store := Sync.applyStore (Sync.fieldNames s.store) data s.store,
                      syncStatus := SyncStatus.online,
                      isRequestPending := true,
                      delayedQueue := s.delayedQueue ++ [ActTag.startSync],
                      suppressed := none } := by
  intro s data hsup hpend hser hdata
  have hinv : ∀ n ∈ Sync.fieldNames s.store, ∃ c, Sync.lookupField s.store n = some c ∧
      Datastore.isSerializeble c.ty = true ∧
      ∃ v, data.lookup n = some v ∧ c.ty.isInstance v = true := by
    intro n hn
    obtain ⟨c, hlk, hcmem⟩ := fieldNames_lookup s.store n hn
    obtain ⟨v, hvd, hvt⟩ := hdata c hcmem
    have hname := lookupField_name s.store n c hlk
    refine ⟨c, hlk, hser c hcmem, v, ?_, hvt⟩
    rw [← hname]
    exact hvd
  have h2 : Sync.internalSuppressObserver { s with isRequestInProgress := false }
      ObsTag.datastoreObs =
      some { s with isRequestInProgress := false,
                    suppressed := some ObsTag.datastoreObs } := by
    simp [Sync.internalSuppressObserver, hsup]
  have h3 : Sync.fromJson
      { s with isRequestInProgress := false, suppressed := some ObsTag.datastoreObs }
      data =
      some { s with isRequestInProgress := false,
                    suppressed := some ObsTag.datastoreObs,
                    store := Sync.applyStore (Sync.fieldNames s.store) data s.store } := by
    unfold Sync.fromJson
    exact fromJsonGo_suppressed data (Sync.fieldNames s.store)
      { s with isRequestInProgress := false, suppressed := some ObsTag.datastoreObs }
      rfl hinv
  have h4 : Sync.internalUnsuppressObserver
      { s with isRequestInProgress := false,
               suppressed := some ObsTag.datastoreObs,
               store := Sync.applyStore (Sync.fieldNames s.store) data s.store }
      ObsTag.datastoreObs =
      some { s with isRequestInProgress := false, suppressed := none,
                    store := Sync.applyStore (Sync.fieldNames s.store) data s.store } := by
    simp [Sync.internalUnsuppressObserver]
  simp only [Sync.pullCallback, h2, h3, h4]
  unfold Sync.scheduleSyncRequest
  simp [hpend]

theorem C5_pull_applies_while_suppressed_witness :
    ((⟨[⟨"state", Ty.integer, Val.int 68⟩], SyncStatus.notInit, true, true, false, true,
        false, [], [], [], [], none, []⟩ : Sys).suppressed = none) ∧
    ((⟨[⟨"state", Ty.integer, Val.int 68⟩], SyncStatus.notInit, true, true, false, true,
        false, [], [], [], [], none, []⟩ : Sys).isRequestPending = false) ∧
    Sync.pullCallback
      ⟨[⟨"state", Ty.integer, Val.int 68⟩], SyncStatus.notInit, true, true, false, true,
        false, [], [], [], [], none, []⟩
      [("state", Val.int 5)] =
      some ⟨[⟨"state", Ty.integer, Val.int 5⟩], SyncStatus.online, true, true, true, false,
        false, [], [], [], [ActTag.startSync], none, []⟩ := by
  refine ⟨rfl, rfl, ?_⟩
  have h := C5_pull_applies_while_suppressed
    ⟨[⟨"state", Ty.integer, Val.int 68⟩], SyncStatus.notInit, true, true, false, true,
      false, [], [], [], [], none, []⟩
    [("state", Val.int 5)] rfl rfl
    (by decide)
    (by
      intro c hc
      simp only [List.mem_singleton] at hc
      subst hc
      exact ⟨Val.int 5, rfl, rfl⟩)
  rw [h]
  rfl

/-! ## Claim C6 -/

theorem scheduleSyncRequest_fields (s : Sys) :
    (Sync.scheduleSyncRequest s).syncStatus = s.syncStatus ∧
    (Sync.scheduleSyncRequest s).shouldPush = s.shouldPush ∧
    (Sync.scheduleSyncRequest s).isRequestInProgress = s.isRequestInProgress := by
  unfold Sync.scheduleSyncRequest
  split <;> simp

/-- C6: a failed pull or push request (the transport error callback — the
same path a client-side timeout takes) sets the connectivity cell to
OFFLINE; a failed push additionally sets `shouldPush` back to true, and
`startSyncRequest` invoked while active with `shouldPush` set issues a
PUSH request rather than a PULL. -/
theorem C6_failure_offline_retry_push :
    (∀ s : Sys, (Sync.pushErrorCallback s).syncStatus = SyncStatus.offline ∧
        (Sync.pushErrorCallback s).shouldPush = true ∧
        (Sync.pushErrorCallback s).isRequestInProgress = false) ∧
    (∀ s : Sys, (Sync.pullErrorCallback s).syncStatus = SyncStatus.offline ∧
        (Sync.pullErrorCallback s).isRequestInProgress = false) ∧
    (∀ s : Sys, s.isActive = true → s.shouldPush = true →
        Sync.startSyncRequest s =
          Sync.startPushRequest { s with isRequestPending := false } ∧
        (Sync.startSyncRequest s).inFlight = s.inFlight ++ [ReqKind.push]) := by
  refine ⟨?_, ?_, ?_⟩
  · intro s
    have h := scheduleSyncRequest_fields
      { s with isRequestInProgress := false, syncStatus := SyncStatus.offline,
               shouldPush := true }
    exact ⟨h.1, h.2.1, h.2.2⟩
  · intro s
    have h := scheduleSyncRequest_fields
      { s with isRequestInProgress := false, syncStatus := SyncStatus.offline }
    exact ⟨h.1, h.2.2⟩
  · intro s h1 h2
    constructor
    · simp [Sync.startSyncRequest, h1, h2]
    · simp [Sync.startSyncRequest, Sync.startPushRequest, h1, h2]

theorem C6_failure_offline_retry_push_witness :
    ((Sync.pushErrorCallback
        ⟨[], SyncStatus.online, true, true, false, true, false, [], [], [], [], none,
          []⟩).syncStatus = SyncStatus.offline ∧
      (Sync.pushErrorCallback
        ⟨[], SyncStatus.online, true, true, false, true, false, [], [], [], [], none,
          []⟩).shouldPush = true ∧
      (Sync.pushErrorCallback
        ⟨[], SyncStatus.online, true, true, false, true, false, [], [], [], [], none,
          []⟩).isRequestInProgress = false) ∧
    ((Sync.pullErrorCallback
        ⟨[], SyncStatus.online, true, true, false, true, false, [], [], [], [], none,
          []⟩).syncStatus = SyncStatus.offline) ∧
    ((⟨[], SyncStatus.offline, true, true, true, false, true, [], [], [], [], none,
        []⟩ : Sys).isActive = true ∧
      (⟨[], SyncStatus.offline, true, true, true, false, true, [], [], [], [], none,
        []⟩ : Sys).shouldPush = true ∧
      (Sync.startSyncRequest
        ⟨[], SyncStatus.offline, true, true, true, false, true, [], [], [], [], none,
          []⟩).inFlight = [ReqKind.push]) :=
  ⟨C6_failure_offline_retry_push.1 _,
   (C6_failure_offline_retry_push.2.1 _).1,
   rfl, rfl,
   (C6_failure_offline_retry_push.2.2
     ⟨[], SyncStatus.offline, true, true, true, false, true, [], [], [], [], none, []⟩
     rfl rfl).2⟩

/-! ## Claim C8 -/

/-- C8: for any interleaving of completion events (late responses,
partial-progress events, the timeout — including the synthetic
`readyState` change fired by the timeout's own `abort()`), the callbacks
fire at most once per call in total; once the `active` flag is cleared
every completion path is a no-op; and the timeout path on an active call
clears the flag, aborts the in-flight request, and fires `onError`. -/
theorem C8_completion_at_most_once :
    (∀ evs : List Transport.TEvent, (Transport.tRun evs).fired.length ≤ 1) ∧
    (∀ (c : Transport.TransportCall) (e : Transport.TEvent), c.active = false →
        Transport.tStep c e = c) ∧
    (∀ c : Transport.TransportCall, c.active = true →
        Transport.tStep c Transport.TEvent.timeout =
          { c with active := false, aborted := true,
                   fired := c.fired ++ [Transport.TCallback.onError] }) := by
  have hstep : ∀ (c : Transport.TransportCall) (e : Transport.TEvent),
      (c.active = true → c.fired = []) → c.fired.length ≤ 1 →
      ((Transport.tStep c e).active = true → (Transport.tStep c e).fired = []) ∧
      (Transport.tStep c e).fired.length ≤ 1 := by
    intro c e h1 h2
    cases e with
    | progress => exact ⟨h1, h2⟩
    | response status hasText =>
      cases hc : c.active with
      | false =>
        refine ⟨?_, ?_⟩ <;> simp [Transport.tStep, hc]
        exact h2
      | true =>
        have hf := h1 hc
        constructor
        · intro hcontra
          simp [Transport.tStep, hc] at hcontra
        · simp [Transport.tStep, hc, hf]
    | timeout =>
      cases hc : c.active with
      | false =>
        refine ⟨?_, ?_⟩ <;> simp [Transport.tStep, hc]
        exact h2
      | true =>
        have hf := h1 hc
        constructor
        · intro hcontra
          simp [Transport.tStep, hc] at hcontra
        · simp [Transport.tStep, hc, hf]
  have hrun : ∀ (evs : List Transport.TEvent) (c : Transport.TransportCall),
      (c.active = true → c.fired = []) → c.fired.length ≤ 1 →
      (evs.foldl Transport.tStep c).fired.length ≤ 1 := by
    intro evs
    induction evs with
    | nil => intro c _ h2; exact h2
    | cons e rest ih =>
      intro c h1 h2
      obtain ⟨h1a, h2a⟩ := hstep c e h1 h2
      exact ih (Transport.tStep c e) h1a h2a
  refine ⟨?_, ?_, ?_⟩
  · intro evs
    exact hrun evs Transport.initCall (fun _ => rfl) (by simp [Transport.initCall])
  · intro c e h
    cases e with
    | progress => rfl
    | response status hasText => simp [Transport.tStep, h]
    | timeout => simp [Transport.tStep, h]
  · intro c h
    simp [Transport.tStep, h]

theorem C8_completion_at_most_once_witness :
    ((⟨false, false, [Transport.TCallback.onError]⟩ :
        Transport.TransportCall).active = false ∧
      Transport.tStep ⟨false, false, [Transport.TCallback.onError]⟩
          (Transport.TEvent.response 200 true) =
        ⟨false, false, [Transport.TCallback.onError]⟩) ∧
    ((⟨true, false, []⟩ : Transport.TransportCall).active = true ∧
      Transport.tStep ⟨true, false, []⟩ Transport.TEvent.timeout =
        ⟨false, true, [Transport.TCallback.onError]⟩) ∧
    (Transport.tRun [Transport.TEvent.timeout,
        Transport.TEvent.response 200 true]).fired.length ≤ 1 :=
  ⟨⟨rfl, C8_completion_at_most_once.2.1 _ (Transport.TEvent.response 200 true) rfl⟩,
   ⟨rfl, C8_completion_at_most_once.2.2 ⟨true, false, []⟩ rfl⟩,
   C8_completion_at_most_once.1 [Transport.TEvent.timeout,
     Transport.TEvent.response 200 true]⟩

end HelloCloud
